import Mathlib

/-!
Verification of the rustfst core against its specification.

The Rust sources are shallowly embedded: `VectorFst` becomes a record of a
start state and a list of per-state records, `ConstFst` keeps the flat
transition array and per-state index records, semirings are explicit
operation bundles, and fallible operations return `Option`.  Machine floats
of the Tropical semiring are modelled by integers counted in tenths (every
concrete weight appearing in the specification is a decimal with one
fractional digit, so the scaling is exact).

Components of the repository whose sources are not available (the text
symbol-table parser, `shortest_distance`, `reweight`, the SCC visitor and
`connect`, the `VectorFst` → `ConstFst` conversion) are modelled from the
specification; each such definition carries a doc comment starting with
`Modelled from the spec:`.
-/

namespace RustfstSpec

/-- Labels are non-negative integers (src: `Label = usize`). -/
abbrev Label := Nat

/-- Reserved epsilon label (spec §3, src `EPS_LABEL`). -/
def EPS_LABEL : Label := 0

/-- Reserved epsilon symbol (spec §6, src `EPS_SYMBOL`). -/
def EPS_SYMBOL : String := "<eps>"

/-- A transition: 4-tuple (ilabel, olabel, weight, nextstate)
(src `Tr`, spec §3). -/
structure Tr (W : Type) where
  ilabel : Label
  olabel : Label
  weight : W
  nextstate : Nat
deriving DecidableEq, Repr

/-- Explicit bundle of semiring operations, mirroring the `Semiring` trait
(spec §4.1).  `rev` is the reverse-weight involution; for the commutative
semirings used here `rev = id`. -/
structure SemiringOps (W : Type) where
  plus : W → W → W
  times : W → W → W
  zero : W
  one : W
  rev : W → W

/-- Tropical weights: min/+ on numbers extended with +∞ (spec §4.1).
The numeric carrier is ℤ counted in tenths, which represents every decimal
weight occurring in the specification exactly. -/
inductive Trop where
  | inf : Trop
  | val : ℤ → Trop
deriving DecidableEq, Repr

/-- Tropical ⊕ = min, with +∞ as identity. -/
def Trop.plus : Trop → Trop → Trop
  | .inf, b => b
  | a, .inf => a
  | .val a, .val b => .val (min a b)

/-- Tropical ⊗ = +, with +∞ absorbing. -/
def Trop.times : Trop → Trop → Trop
  | .inf, _ => .inf
  | _, .inf => .inf
  | .val a, .val b => .val (a + b)

/-- The Tropical semiring operation bundle (self-reverse, spec §4.1). -/
def tropS : SemiringOps Trop :=
  { plus := Trop.plus, times := Trop.times,
    zero := Trop.inf, one := Trop.val 0, rev := id }

/-- Multiplicative inverse of a nonzero tropical weight (negation);
used by the spec-modelled `reweight` (spec §4.9 writes `V[s]⁻¹ ⊗ w`). -/
def tropInv : Trop → Trop
  | .inf => .inf
  | .val a => .val (-a)

/-- Boolean weights (src `boolean_weight.rs`). -/
structure BooleanWeight where
  value : Bool
deriving DecidableEq, Repr

/-- The Boolean semiring: ⊕ = ∨, ⊗ = ∧, zero = false, one = true
(src `boolean_weight.rs`). -/
def boolS : SemiringOps BooleanWeight :=
  { plus := fun a b => ⟨a.value || b.value⟩,
    times := fun a b => ⟨a.value && b.value⟩,
    zero := ⟨false⟩, one := ⟨true⟩, rev := id }

/-- A `VectorFst` state record `{ final_weight, trs }` (spec §4.3). -/
structure VState (W : Type) where
  final_weight : Option W
  trs : List (Tr W)
deriving DecidableEq, Repr

/-- The mutable FST representation: optional start state and a dense list
of state records (spec §3, §4.3). -/
structure VectorFst (W : Type) where
  start : Option Nat
  states : List (VState W)
deriving DecidableEq, Repr

variable {W : Type}

/-- `num_states` (spec §4.2 `ExpandedFst`). -/
def VectorFst.num_states (f : VectorFst W) : Nat := f.states.length

/-- `final_weight(s)`: the optional final weight of a state
(src `fst_traits/fst.rs`; `None` also for a non-existent state). -/
def VectorFst.final_weight (f : VectorFst W) (s : Nat) : Option W :=
  (f.states.get? s).bind VState.final_weight

/-- `is_final(s)`: default implementation from the `CoreFst` trait,
src `fst_traits/fst.rs` lines 93-95: `final_weight(state_id).is_some()`. -/
def VectorFst.is_final (f : VectorFst W) (s : Nat) : Bool :=
  (f.final_weight s).isSome

/-- The stored transition list of a state (empty for a non-existent state). -/
def VectorFst.trsAt (f : VectorFst W) (s : Nat) : List (Tr W) :=
  ((f.states.get? s).map VState.trs).getD []

/-- Structural invariant (spec §3): every `nextstate` references a valid
state and the start state, if set, is valid. -/
def VectorFst.wf (f : VectorFst W) : Prop :=
  (∀ st ∈ f.states, ∀ tr ∈ st.trs, tr.nextstate < f.states.length) ∧
  (∀ s, f.start = some s → s < f.states.length)

instance (f : VectorFst W) : Decidable f.wf := by
  unfold VectorFst.wf
  have : Decidable (∀ s, f.start = some s → s < f.states.length) := by
    rcases f.start with _ | s
    · exact isTrue (by intro u hu; cases hu)
    · by_cases hs : s < f.states.length
      · exact isTrue (by intro u hu; cases hu; exact hs)
      · exact isFalse (by intro hall; exact hs (hall s rfl))
  exact instDecidableAnd

/-! ### CacheState (src `algorithms/cache/cache_state.rs`, claim C10) -/

/-- Cached per-state data (src `cache_state.rs` lines 6-12). -/
structure CacheState (W : Type) where
  trs : List (Tr W)
  final_weight : Option W
  expanded : Bool
  has_final : Bool
deriving DecidableEq, Repr

/-- `CacheState::new` (src lines 15-22). -/
def CacheState.new : CacheState W :=
  { trs := [], final_weight := none, expanded := false, has_final := false }

/-- `CacheState::set_final_weight` (src lines 36-39): stores the optional
weight and records that it has been computed. -/
def CacheState.set_final_weight (st : CacheState W) (w : Option W) :
    CacheState W :=
  { st with final_weight := w, has_final := true }

/-! ### SymbolTable (src `symbol_table.rs`, claims C4 and C6) -/

abbrev Symbol := String

/-- Association-list lookup, modelling `HashMap::get`. -/
def alookup {α β : Type} [DecidableEq α] : List (α × β) → α → Option β
  | [], _ => none
  | (k, v) :: rest, k' => if k' = k then some v else alookup rest k'

/-- `HashMap::entry(k).or_insert(v)`: insert only when the key is absent. -/
def orInsert {α β : Type} [DecidableEq α] (m : List (α × β)) (k : α) (v : β) :
    List (α × β) :=
  if (alookup m k).isSome then m else m ++ [(k, v)]

/-- `HashMap::insert(k, v)`: overwrite semantics. -/
def insertA {α β : Type} [DecidableEq α] (m : List (α × β)) (k : α) (v : β) :
    List (α × β) :=
  if (alookup m k).isSome
  then m.map (fun p => if p.1 = k then (k, v) else p)
  else m ++ [(k, v)]

/-- Bidirectional label↔symbol map (src `symbol_table.rs` lines 14-19);
the two hash maps become association lists. -/
structure SymbolTable where
  label_to_symbol : List (Label × Symbol)
  symbol_to_label : List (Symbol × Label)
  num_symbols : Nat
deriving DecidableEq, Repr

/-- The all-empty table literal built inside `SymbolTable::new`
(src lines 38-42). -/
def SymbolTable.empty : SymbolTable :=
  { label_to_symbol := [], symbol_to_label := [], num_symbols := 0 }

/-- `SymbolTable::add_symbol` (src lines 71-80): take the counter as the
label, `or_insert` into both maps, increment the counter, return the label. -/
def SymbolTable.add_symbol (t : SymbolTable) (sym : Symbol) :
    SymbolTable × Label :=
  let label := t.num_symbols
  ({ symbol_to_label := orInsert t.symbol_to_label sym label,
     label_to_symbol := orInsert t.label_to_symbol label sym,
     num_symbols := t.num_symbols + 1 }, label)

/-- `SymbolTable::new` (src lines 37-47): empty table plus the epsilon
entry. -/
def SymbolTable.new : SymbolTable :=
  (SymbolTable.empty.add_symbol EPS_SYMBOL).1

/-- `SymbolTable::len` (src lines 92-94). -/
def SymbolTable.len (t : SymbolTable) : Nat := t.num_symbols

/-- `SymbolTable::get_label` (src lines 109-111). -/
def SymbolTable.get_label (t : SymbolTable) (sym : Symbol) : Option Label :=
  alookup t.symbol_to_label sym

/-- `SymbolTable::get_symbol` (src lines 126-128). -/
def SymbolTable.get_symbol (t : SymbolTable) (l : Label) : Option Symbol :=
  alookup t.label_to_symbol l

/-- `SymbolTable::contains_symbol` (src lines 140-142). -/
def SymbolTable.contains_symbol (t : SymbolTable) (sym : Symbol) : Bool :=
  (t.get_label sym).isSome

/-- The table obtained from `new()` by a sequence of `add_symbol` calls
(the `symt!` macro builds exactly this). -/
def applyAdds (syms : List Symbol) : SymbolTable :=
  syms.foldl (fun t s => (t.add_symbol s).1) SymbolTable.new

/-- The labels present in the label→symbol map are exactly the dense range
`0..len()`, in insertion order. -/
def SymbolTable.denseLabels (t : SymbolTable) : Prop :=
  t.label_to_symbol.map Prod.fst = List.range t.num_symbols

instance (t : SymbolTable) : Decidable t.denseLabels := by
  unfold SymbolTable.denseLabels; infer_instance

/-! ### ConstFst (src `fst_impls/const_fst/iterators.rs`, spec §4.4,
claims C7 and C8) -/

/-- Per-state index record of the compact form
`{ final_weight, pos, narcs, niepsilons, noepsilons }` (spec §4.4). -/
structure ConstState (W : Type) where
  final_weight : Option W
  pos : Nat
  narcs : Nat
  niepsilons : Nat
  noepsilons : Nat
deriving DecidableEq, Repr

/-- The immutable FST representation: flat transition array plus per-state
index records (spec §4.4). -/
structure ConstFst (W : Type) where
  start : Option Nat
  states : List (ConstState W)
  trs : List (Tr W)
deriving DecidableEq, Repr

/-- `TrIterator for ConstFst` (src `iterators.rs` lines 31-45): fails when
the state does not exist, otherwise yields the slice
`trs[pos .. pos+narcs]` in stored order.  `none` models the error case. -/
def ConstFst.tr_iter (f : ConstFst W) (s : Nat) : Option (List (Tr W)) :=
  match f.states.get? s with
  | none => none
  | some st => some ((f.trs.drop st.pos).take st.narcs)

/-- `final_weight` of the compact form: the state record's field
(spec §4.4). -/
def ConstFst.final_weight (f : ConstFst W) (s : Nat) : Option W :=
  (f.states.get? s).bind ConstState.final_weight

/-- `num_trs(s)` of the compact form: the state record's `narcs`
(spec §4.4). -/
def ConstFst.num_trs (f : ConstFst W) (s : Nat) : Nat :=
  ((f.states.get? s).map ConstState.narcs).getD 0

/-- Item yielded by the FST iterators (src `fst_traits/iterators.rs`
lines 47-52). -/
structure FstIterData (W : Type) where
  state_id : Nat
  trs : List (Tr W)
  final_weight : Option W
  num_trs : Nat
deriving DecidableEq, Repr

/-- The first loop of `fst_into_iter` (src `iterators.rs` lines 62-65):
each state drains the first `narcs` transitions off the front of the
remaining flat array. -/
def drainTrs : List (ConstState W) → List (Tr W) → List (List (Tr W))
  | [], _ => []
  | st :: rest, rem => rem.take st.narcs :: drainTrs rest (rem.drop st.narcs)

/-- `FstIntoIterator for ConstFst` (src `iterators.rs` lines 58-77):
zip the drained per-state transition lists with the state records and
enumerate. -/
def ConstFst.fst_into_iter (f : ConstFst W) : List (FstIterData W) :=
  let trs := drainTrs f.states f.trs
  (f.states.zip trs).enum.map fun p =>
    { state_id := p.1, trs := p.2.2, final_weight := p.2.1.final_weight,
      num_trs := p.2.1.narcs }

/-- Running construction of the per-state records of a `ConstFst`,
recording the running offset `pos`. -/
def constStatesFrom (pos : Nat) : List (VState W) → List (ConstState W)
  | [] => []
  | st :: rest =>
    { final_weight := st.final_weight, pos := pos, narcs := st.trs.length,
      niepsilons := (st.trs.filter (fun tr => tr.ilabel = EPS_LABEL)).length,
      noepsilons := (st.trs.filter (fun tr => tr.olabel = EPS_LABEL)).length }
      :: constStatesFrom (pos + st.trs.length) rest

/-- Modelled from the spec: the `VectorFst` → `ConstFst` conversion, whose
source is not under `src/`.  Spec §4.4: "single pass that concatenates
per-state transitions into the flat array while recording `pos` and
precomputed counts". -/
def vectorToConst (f : VectorFst W) : ConstFst W :=
  { start := f.start,
    states := constStatesFrom 0 f.states,
    trs := (f.states.map VState.trs).flatten }

/-- The per-state iterator data spelt out directly on the `VectorFst`
states, starting at state id `k`; both `fst_into_iter` and the per-state
accessors of a converted `ConstFst` are proved to produce this list. -/
def canonicalFrom (k : Nat) : List (VState W) → List (FstIterData W)
  | [] => []
  | st :: rest =>
    ⟨k, st.trs, st.final_weight, st.trs.length⟩ :: canonicalFrom (k + 1) rest

/-- The per-state reference data of `do_test_fst_into_iterator`
(src `test_fst_into_iterator.rs` lines 12-19): state id, `tr_iter`
transitions, `final_weight` and `num_trs` for each state in increasing
order. -/
def perStateData (f : ConstFst W) : List (FstIterData W) :=
  (List.range f.states.length).map fun s =>
    { state_id := s, trs := (f.tr_iter s).getD [],
      final_weight := f.final_weight s, num_trs := f.num_trs s }

/-! ### Reverse (src `algorithms/reverse.rs`, claim C1) -/

/-- Append one element to bucket `i` (models `states_trs[i].push(tr)`,
src `reverse.rs` lines 58 and 65). -/
def pushBucket {α : Type} (bs : List (List α)) (i : Nat) (a : α) :
    List (List α) :=
  bs.set i (bs.getD i [] ++ [a])

/-- Process a stream of (bucket, element) pushes in order. -/
def pushAll {α : Type} (bs : List (List α)) (ps : List (Nat × α)) :
    List (List α) :=
  ps.foldl (fun acc p => pushBucket acc p.1 p.2) bs

/-- The pushes performed by one iteration of the main loop of `reverse`
(src `reverse.rs` lines 51-67) for input state `s`: first the superinitial
epsilon transition for a final state (lines 56-59), then one reversed
transition per outgoing transition (lines 61-66). -/
def reverseEmit (S : SemiringOps W) (s : Nat) (st : VState W) :
    List (Nat × Tr W) :=
  (match st.final_weight with
   | some w => [(0, ⟨EPS_LABEL, EPS_LABEL, S.rev w, s + 1⟩)]
   | none => []) ++
  st.trs.map fun tr => (tr.nextstate + 1, ⟨tr.ilabel, tr.olabel, S.rev tr.weight, s + 1⟩)

/-- `reverse` (src `reverse.rs` lines 29-77): a superinitial state `0` is
created, every input state `s` becomes output state `s+1`, the buckets
`states_trs` are filled by the emission stream above and installed with
`set_trs` (line 68-71), the input start state becomes final with weight
`one` (line 54), and the output start is the superinitial state (line 72). -/
def reverse (S : SemiringOps W) (f : VectorFst W) : VectorFst W :=
  let n := f.num_states
  let buckets := pushAll (List.replicate (n + 1) [])
    (f.states.enum.flatMap fun p => reverseEmit S p.1 p.2)
  { start := some 0,
    states := (List.range (n + 1)).map fun os =>
      { final_weight :=
          if os ≠ 0 ∧ f.start = some (os - 1) then some S.one else none,
        trs := buckets.getD os [] } }

/-- The claim's description of the superinitial state's transitions: for
each input final state `s` with weight `w`, an epsilon transition
`(EPS, EPS, w.reverse(), s+1)`. -/
def reverseSuperTrs (S : SemiringOps W) (f : VectorFst W) : List (Tr W) :=
  f.states.enum.flatMap fun p =>
    match p.2.final_weight with
    | some w => [⟨EPS_LABEL, EPS_LABEL, S.rev w, p.1 + 1⟩]
    | none => []

/-- The claim's description of the transitions of output state `t+1`: each
input transition `s -(i,o,w)-> t` becomes `t+1 -(i,o,w.reverse())-> s+1`,
ordered by source state and then by stored position. -/
def reverseInTrs (S : SemiringOps W) (f : VectorFst W) (t : Nat) :
    List (Tr W) :=
  f.states.enum.flatMap fun p =>
    (p.2.trs.filter fun tr => tr.nextstate = t).map fun tr =>
      (⟨tr.ilabel, tr.olabel, S.rev tr.weight, p.1 + 1⟩ : Tr W)

/-! ### Reachability, connect (spec §4.6), rm_final_epsilon
(src `algorithms/rm_final_epsilon.rs`, claims C3 and C9) -/

/-- n-fold iteration of a function. -/
def iterate {α : Type} (g : α → α) : Nat → α → α
  | 0, a => a
  | n + 1, a => iterate g n (g a)

/-- One expansion step of backward reachability: a state is marked when it
is already marked or has a transition into a marked state. -/
def coaccessStep (f : VectorFst W) (cur : Nat → Bool) : Nat → Bool :=
  fun s => cur s || (f.trsAt s).any fun tr => cur tr.nextstate

/-- Modelled from the spec: the `coaccess` array of the SCC visitor, whose
source is not under `src/`.  Spec §4.6: "`coaccess[s]`: can reach a final
state".  Computed as a bounded fixpoint iteration seeded with the final
states. -/
def coaccess (f : VectorFst W) : Nat → Bool :=
  iterate (coaccessStep f) f.num_states (fun s => f.is_final s)

/-- One expansion step of forward reachability from the marked set. -/
def accessStep (f : VectorFst W) (cur : Nat → Bool) : Nat → Bool :=
  fun s => cur s ||
    (List.range f.num_states).any fun u =>
      cur u && (f.trsAt u).any fun tr => tr.nextstate = s

/-- Modelled from the spec: the `access` array of the SCC visitor, whose
source is not under `src/`.  Spec §4.6: "`access[s]`: reachable from
start". -/
def access (f : VectorFst W) : Nat → Bool :=
  iterate (accessStep f) f.num_states (fun s => f.start = some s)

/-- A state survives `connect` when it is both accessible and
coaccessible (spec §4.6). -/
def keepState (f : VectorFst W) (s : Nat) : Bool :=
  access f s && coaccess f s

/-- New id of a surviving state: its rank among the survivors below it. -/
def newId (f : VectorFst W) (s : Nat) : Nat :=
  ((List.range s).filter (keepState f)).length

/-- Modelled from the spec: `connect`, whose source is not under `src/`.
Spec §4.6: "removes every state `s` for which `!access[s] || !coaccess[s]`,
then renumbers survivors"; removing a state also removes every transition
referencing it (spec §4.2). -/
def connect (f : VectorFst W) : VectorFst W :=
  { start := f.start.bind fun s =>
      if keepState f s then some (newId f s) else none,
    states := (List.range f.num_states).filterMap fun s =>
      if keepState f s then
        some { final_weight := (f.states.get? s).bind VState.final_weight,
               trs := (f.trsAt s).filterMap fun tr =>
                 if keepState f tr.nextstate
                 then some { tr with nextstate := newId f tr.nextstate }
                 else none }
      else none }

/-- The set `F` of `rm_final_epsilon` (src `rm_final_epsilon.rs` lines
22-39): final states none of whose successors are coaccessible. -/
def inFset (f : VectorFst W) (s : Nat) : Bool :=
  f.is_final s && !((f.trsAt s).any fun tr => coaccess f tr.nextstate)

/-- The indices of the transitions deleted at one state (src lines 46-65):
epsilon:epsilon transitions into `F`. -/
def rfeMatches (Fs : Nat → Bool) (trs : List (Tr W)) : List (Tr W) :=
  trs.filter fun tr =>
    Fs tr.nextstate && tr.ilabel = EPS_LABEL && tr.olabel = EPS_LABEL

/-- The body of the per-state loop of `rm_final_epsilon` (src lines 42-74)
for one state: accumulate `final[s'] ⊗ w` over the matching transitions
into the state's final weight (starting from it, or from `zero` when
absent), set the final weight when the result is nonzero, and delete the
matching transitions.  Reads of other states' data go through the current
(already partially updated) FST, as in the source. -/
def rfeState [DecidableEq W] (S : SemiringOps W) (Fs : Nat → Bool)
    (f : VectorFst W) (s : Nat) : VectorFst W :=
  let hits := rfeMatches Fs (f.trsAt s)
  if hits.isEmpty then f
  else
    let w := hits.foldl
      (fun acc tr =>
        S.plus acc (S.times ((f.final_weight tr.nextstate).getD S.zero)
          tr.weight))
      ((f.final_weight s).getD S.zero)
    let keptTrs := (f.trsAt s).filter fun tr =>
      !(Fs tr.nextstate && tr.ilabel = EPS_LABEL && tr.olabel = EPS_LABEL)
    { start := f.start,
      states := f.states.set s
        { final_weight :=
            if w = S.zero then (f.states.get? s).bind VState.final_weight
            else some w,
          trs := keptTrs } }

/-- `rm_final_epsilon` (src `rm_final_epsilon.rs` lines 15-79): compute
`coaccess`, collect `F`, run the per-state loop over all states in
increasing order, then `connect`. -/
def rm_final_epsilon [DecidableEq W] (S : SemiringOps W) (f : VectorFst W) :
    VectorFst W :=
  let Fs := inFset f
  connect ((List.range f.num_states).foldl (rfeState S Fs) f)

/-! ### Shortest distance, reweight, push (src
`algorithms/weight_pushing.rs`, spec §4.7 and §4.9, claim C2) -/

/-- The backward sum at one state: `⊕_t (w_t ⊗ V[next t]) ⊕ base`. -/
def backSum (S : SemiringOps W) (V : Nat → W) (trs : List (Tr W))
    (base : W) : W :=
  trs.foldr (fun tr acc => S.plus (S.times tr.weight (V tr.nextstate)) acc)
    base

/-- Modelled from the spec: the result of reverse-mode `shortest_distance`
(whose source is not under `src/`) is characterised by its convergence
fixpoint.  Spec §4.7: relaxation converges when every state's distance
equals the ⊕-sum of `w ⊗ d[next]` over its outgoing transitions plus its
final weight (`zero` when absent); this is the distance used when pushing
toward the initial state. -/
def isReverseDistance (S : SemiringOps W) (f : VectorFst W)
    (V : Nat → W) : Prop :=
  ∀ s, s < f.num_states →
    V s = backSum S V (f.trsAt s) ((f.final_weight s).getD S.zero)

instance [DecidableEq W] (S : SemiringOps W) (f : VectorFst W)
    (V : Nat → W) : Decidable (isReverseDistance S f V) := by
  unfold isReverseDistance
  exact Nat.decidableBallLT _ _

/-- Modelled from the spec: `reweight` toward the initial state, whose
source is not under `src/`.  Spec §4.9: "replace `t: s→u, w` by
`w' = V[s]⁻¹ ⊗ w ⊗ V[u]`; replace `final[s]` by `V[s]⁻¹ ⊗ final[s]`",
where `inv` supplies the multiplicative inverse `V[s]⁻¹`. -/
def reweightToInitial (S : SemiringOps W) (inv : W → W) (f : VectorFst W)
    (V : Nat → W) : VectorFst W :=
  { start := f.start,
    states := f.states.enum.map fun p =>
      { final_weight := p.2.final_weight.map fun w =>
          S.times (inv (V p.1)) w,
        trs := p.2.trs.map fun tr =>
          { tr with weight :=
              S.times (S.times (inv (V p.1)) tr.weight) (V tr.nextstate) } } }

/-- `push_weights(fst, ReweightToInitial)` (src `weight_pushing.rs` lines
13-22): compute `V := shortest_distance(fst, true)` and call `reweight`.
The distance vector `V` is passed explicitly since `shortest_distance`'s
source is not under `src/`; the claims constrain it with
`isReverseDistance`. -/
def push_weightsToInitial (S : SemiringOps W) (inv : W → W)
    (f : VectorFst W) (V : Nat → W) : VectorFst W :=
  reweightToInitial S inv f V

/-- The quantity of the push fixed-point property (spec §8.4): the ⊕-sum
of the outgoing transition weights of `s` plus its final weight (`zero`
when absent). -/
def outFinalSum (S : SemiringOps W) (f : VectorFst W) (s : Nat) : W :=
  ((f.trsAt s).map Tr.weight).foldr S.plus ((f.final_weight s).getD S.zero)

/-! ### Symbol-table text form (src `symbol_table.rs` macro
`write_symt_text` and `from_text_string`, spec §6, claim C6).
Text is modelled as a list of characters. -/

/-- Decimal digit characters. -/
def isDigitChar (c : Char) : Bool := 48 ≤ c.toNat && c.toNat ≤ 57

/-- Decimal rendering with explicit fuel (structural recursion so that the
kernel evaluates it); `fuel` exceeding the value is enough. -/
def natToCharsAux : Nat → Nat → List Char
  | 0, _ => []
  | fuel + 1, n =>
    if n < 10 then [Char.ofNat (48 + n)]
    else natToCharsAux fuel (n / 10) ++ [Char.ofNat (48 + n % 10)]

/-- Decimal rendering of a label, modelling Rust's `{}` formatting of an
unsigned integer. -/
def natToChars (n : Nat) : List Char := natToCharsAux (n + 1) n

/-- Value of a string of decimal digits. -/
def charsVal (cs : List Char) : Nat :=
  cs.foldl (fun a c => a * 10 + (c.toNat - 48)) 0

/-- Parse a non-empty all-digit character list as a label. -/
def charsToNat? (cs : List Char) : Option Nat :=
  if !cs.isEmpty && cs.all isDigitChar then some (charsVal cs) else none

/-- Split a character list at every occurrence of `c`. -/
def splitOnChar (c : Char) : List Char → List (List Char)
  | [] => [[]]
  | x :: xs =>
    match splitOnChar c xs with
    | [] => [[x]]
    | h :: t => if x = c then [] :: h :: t else (x :: h) :: t

/-- One record of the text form: `SYMBOL\tLABEL\n`
(src `write_symt_text`: `writeln!(f, "{}\t{}", symbol, label)`). -/
def lineChars (p : Label × Symbol) : List Char :=
  p.2.data ++ [Char.ofNat 9] ++ natToChars p.1 ++ [Char.ofNat 10]

/-- `iter().sorted_by_key(|k| k.0)` of `write_symt_text`: the label→symbol
pairs sorted by ascending label. -/
def sortByLabel (m : List (Label × Symbol)) : List (Label × Symbol) :=
  m.insertionSort (fun p q => p.1 ≤ q.1)

/-- `SymbolTable::text` (src lines 250-255): one record per pair, sorted
by ascending label. -/
def SymbolTable.textChars (t : SymbolTable) : List Char :=
  ((sortByLabel t.label_to_symbol).map lineChars).flatten

/-- Modelled from the spec: one line of the text parser
(`ParsedTextSymt`, not under `src/`).  Spec §6: one record per line,
`SYMBOL\tLABEL`; blank lines and lines starting with `#` are rejected. -/
def parseLine (l : List Char) : Option (Symbol × Label) :=
  if l.isEmpty || l.head? = some (Char.ofNat 35) then none
  else
    match splitOnChar (Char.ofNat 9) l with
    | [symChars, labelChars] =>
      (charsToNat? labelChars).map fun n => (String.mk symChars, n)
    | _ => none

/-- Parse every line, failing if any line fails. -/
def parseLines : List (List Char) → Option (List (Symbol × Label))
  | [] => some []
  | l :: rest => do
    let p ← parseLine l
    let ps ← parseLines rest
    pure (p :: ps)

/-- `SymbolTable::from_parsed_symt_text` (src lines 214-228): rebuild both
hash maps from the parsed `(symbol, label)` pairs and set `num_symbols` to
the number of pairs. -/
def fromPairs (ps : List (Symbol × Label)) : SymbolTable :=
  { num_symbols := ps.length,
    label_to_symbol := ps.foldl (fun m p => insertA m p.2 p.1) [],
    symbol_to_label := ps.foldl (fun m p => insertA m p.1 p.2) [] }

/-- `SymbolTable::from_text_string` (src lines 230-233), with the line
splitting of the spec-modelled parser: split on newlines, drop the empty
fragment produced by the trailing newline, parse every line. -/
def fromTextChars (text : List Char) : Option SymbolTable :=
  let ls := splitOnChar (Char.ofNat 10) text
  let ls := if ls.getLast? = some [] then ls.dropLast else ls
  (parseLines ls).map fromPairs

/-- A symbol that survives the text form: non-empty, no tab, no newline,
not starting with `#`. -/
def symOk (s : Symbol) : Prop :=
  s.data ≠ [] ∧ s.data.head? ≠ some (Char.ofNat 35) ∧
  Char.ofNat 9 ∉ s.data ∧ Char.ofNat 10 ∉ s.data

instance (s : Symbol) : Decidable (symOk s) := by
  unfold symOk; infer_instance

/-- A well-formed symbol table (claim C6, spec §8.8): labels are exactly
the dense range `0..len()`, symbols are distinct and text-safe, and the
two maps are inverse to each other. -/
def SymbolTable.wellFormed (t : SymbolTable) : Prop :=
  (t.label_to_symbol.map Prod.fst).Perm (List.range t.num_symbols) ∧
  (t.label_to_symbol.map Prod.snd).Nodup ∧
  t.symbol_to_label.Perm (t.label_to_symbol.map Prod.swap) ∧
  ∀ p ∈ t.label_to_symbol, symOk p.2

instance (t : SymbolTable) : Decidable t.wellFormed := by
  unfold SymbolTable.wellFormed; infer_instance

/-- Equality of symbol tables as the derived `PartialEq` on `HashMap`s
sees it: equal counters and equal key-value sets. -/
def tableEq (a b : SymbolTable) : Prop :=
  a.num_symbols = b.num_symbols ∧
  a.label_to_symbol.Perm b.label_to_symbol ∧
  a.symbol_to_label.Perm b.symbol_to_label

instance (a b : SymbolTable) : Decidable (tableEq a b) := by
  unfold tableEq; infer_instance

/-! ### Concrete scenario inputs (spec §8).  Tropical weights are in
tenths: `Trop.val 20` is the spec's `2.0`. -/

/-- Scenario S2 input: states `{0,1}`, start `0`, final `1` weight `2.0`,
transition `0-(a,a,3.0)->1` with `a = 1`. -/
def s2in : VectorFst Trop :=
  ⟨some 0, [⟨none, [⟨1, 1, .val 30, 1⟩]⟩, ⟨some (.val 20), []⟩]⟩

/-- Scenario S2 expected output: states `{0,1,2}`, start `0`, final `1`
weight `one`, transitions `0-(EPS,EPS,2.0)->2` and `2-(a,a,3.0)->1`. -/
def s2out : VectorFst Trop :=
  ⟨some 0, [⟨none, [⟨0, 0, .val 20, 2⟩]⟩, ⟨some (.val 0), []⟩,
    ⟨none, [⟨1, 1, .val 30, 1⟩]⟩]⟩

/-- Scenario S4 input: states `{0,1,2}`, start `0`, finals `1` (weight
`1.0`) and `2` (weight `2.0`), transitions `0-(a,a,0.5)->1` and
`1-(EPS,EPS,0.3)->2`. -/
def s4in : VectorFst Trop :=
  ⟨some 0, [⟨none, [⟨1, 1, .val 5, 1⟩]⟩,
    ⟨some (.val 10), [⟨0, 0, .val 3, 2⟩]⟩, ⟨some (.val 20), []⟩]⟩

/-- Scenario S4 expected output: states `{0,1}`, start `0`, final `1`
weight `1.0`, transition `0-(a,a,0.5)->1`. -/
def s4out : VectorFst Trop :=
  ⟨some 0, [⟨none, [⟨1, 1, .val 5, 1⟩]⟩, ⟨some (.val 10), []⟩]⟩

/-- A two-level chain of final-epsilon states:
`0-(EPS,EPS,1.0)->1-(EPS,EPS,1.0)->2`, final `2` weight `1.0`. -/
def chainIn : VectorFst Trop :=
  ⟨some 0, [⟨none, [⟨0, 0, .val 10, 1⟩]⟩, ⟨none, [⟨0, 0, .val 10, 2⟩]⟩,
    ⟨some (.val 10), []⟩]⟩

/-- Scenario S3 input: start `0`, final `2` weight `0.0`, transitions
`0-(a,a,1.0)->1` and `1-(b,b,2.0)->2`. -/
def s3in : VectorFst Trop :=
  ⟨some 0, [⟨none, [⟨1, 1, .val 10, 1⟩]⟩, ⟨none, [⟨2, 2, .val 20, 2⟩]⟩,
    ⟨some (.val 0), []⟩]⟩

/-- Reverse shortest distances of S3: `V = [3.0, 2.0, 0.0]`. -/
def s3V : Nat → Trop :=
  fun s => if s = 0 then .val 30 else if s = 1 then .val 20
    else if s = 2 then .val 0 else .inf

/-- An FST with a dead (non-coaccessible) non-initial state 1. -/
def deadIn : VectorFst Trop :=
  ⟨some 0, [⟨some (.val 0), []⟩, ⟨none, []⟩]⟩

/-- Reverse shortest distances of `deadIn`: state 1 cannot reach a final
state, so its distance is `zero`. -/
def deadV : Nat → Trop := fun s => if s = 0 then .val 0 else .inf

/-- `symt!["a", "b", "c"]` (scenario S6). -/
def symtABC : SymbolTable := applyAdds ["a", "b", "c"]

/-- A Boolean-weight FST whose single state has a present-but-zero final
weight (claim C5). -/
def zeroFinalFst : VectorFst BooleanWeight :=
  ⟨some 0, [⟨some ⟨false⟩, []⟩]⟩

/-! ## Theorems -/

/-! ### Generic association-list lemmas -/

theorem alookup_eq_none {α β : Type} [DecidableEq α] (m : List (α × β))
    (k : α) : alookup m k = none ↔ k ∉ m.map Prod.fst := by
  induction m with
  | nil => simp [alookup]
  | cons p rest ih =>
    obtain ⟨a, b⟩ := p
    by_cases h : k = a <;> simp [alookup, h, ih]

theorem orInsert_absent {α β : Type} [DecidableEq α] (m : List (α × β))
    (k : α) (v : β) (h : k ∉ m.map Prod.fst) :
    orInsert m k v = m ++ [(k, v)] := by
  unfold orInsert
  rw [(alookup_eq_none m k).mpr h]
  rfl

theorem alookup_append_self {α β : Type} [DecidableEq α]
    (m : List (α × β)) (k : α) (v : β) (h : k ∉ m.map Prod.fst) :
    alookup (m ++ [(k, v)]) k = some v := by
  induction m with
  | nil => simp [alookup]
  | cons p rest ih =>
    obtain ⟨a, b⟩ := p
    simp only [List.map_cons, List.mem_cons, not_or] at h
    simp only [List.cons_append, alookup, if_neg h.1]
    exact ih h.2

/-! ### Claim C10 — CacheState -/

/-- C10: a freshly created `CacheState` has `has_final() = false`; after
any `set_final_weight(w)` call — including `w = None` — `has_final()`
returns `true` while `final_weight()` returns exactly `w`: the flag
records that the final weight has been computed, not that the state is
final. -/
theorem c10_cache_state (W : Type) (st : CacheState W) (w : Option W) :
    (CacheState.new : CacheState W).has_final = false ∧
    (st.set_final_weight w).has_final = true ∧
    (st.set_final_weight w).final_weight = w :=
  ⟨rfl, rfl, rfl⟩

/-! ### Claim C5 — present-but-zero final weights -/

/-- C5 counterexample: a state whose stored final weight is present but
equal to `zero()` has `is_final(s) = true`, not `false` as the claim
states (`is_final` is `final_weight(s).is_some()`, src
`fst_traits/fst.rs` lines 93-95). -/
theorem c5_counterexample :
    zeroFinalFst.final_weight 0 = some boolS.zero ∧
    zeroFinalFst.is_final 0 ≠ false := by decide

/-- C5 amended: `is_final` tests presence of the final weight, so a state
whose final weight is present — even when it equals `zero()` — is
reported final; the present-but-zero ≡ non-final convention is semantic
only and is not implemented by `is_final`. -/
theorem c5_is_final_of_present (W : Type) (f : VectorFst W) (s : Nat)
    (w : W) (h : f.final_weight s = some w) : f.is_final s = true := by
  simp [VectorFst.is_final, h]

/-- Witness for C5 at the concrete Boolean FST with a present-but-zero
final weight. -/
theorem c5_witness :
    zeroFinalFst.final_weight 0 = some boolS.zero ∧
    zeroFinalFst.is_final 0 = true :=
  ⟨by decide,
   c5_is_final_of_present BooleanWeight zeroFinalFst 0 boolS.zero (by decide)⟩

/-! ### Claim C7 — ConstFst transition iteration -/

/-- C7: for every `ConstFst`, `tr_iter(s)` fails exactly when `s` is not
an existing state id, and for every valid state it yields precisely the
slice `trs[pos .. pos+narcs]` of the flat transition array, in stored
order. -/
theorem c7_const_tr_iter (W : Type) (f : ConstFst W) (s : Nat) :
    (f.tr_iter s = none ↔ f.states.length ≤ s) ∧
    (∀ h : s < f.states.length,
      f.tr_iter s =
        some ((f.trs.drop (f.states.get ⟨s, h⟩).pos).take
          (f.states.get ⟨s, h⟩).narcs)) := by
  constructor
  · unfold ConstFst.tr_iter
    rcases hg : f.states.get? s with _ | st
    · simpa using (List.get?_eq_none.mp hg)
    · simp only []
      constructor
      · intro h; cases h
      · intro hlen
        rw [List.get?_eq_none.mpr hlen] at hg
        cases hg
  · intro h
    unfold ConstFst.tr_iter
    rw [List.get?_eq_get h]

/-- Witness for C7 on a concrete `ConstFst`: a valid state yields its
slice, an out-of-range state fails. -/
theorem c7_witness :
    (vectorToConst s4in).tr_iter 1 = some [⟨0, 0, .val 3, 2⟩] ∧
    (vectorToConst s4in).tr_iter 7 = none :=
  ⟨((c7_const_tr_iter Trop (vectorToConst s4in) 1).2 (by decide)).trans
      (by decide),
   (c7_const_tr_iter Trop (vectorToConst s4in) 7).1.mpr (by decide)⟩

/-! ### Claim C4 — SymbolTable label assignment -/

/-- C4 counterexample: adding `"a"` twice to a fresh table returns `2`
the second time (not the first-assigned label `1`), and a new entry is
created: `len` becomes `3` and label `2` also maps to `"a"`. -/
theorem c4_counterexample :
    ((SymbolTable.new.add_symbol "a").1.add_symbol "a").2 ≠
      (SymbolTable.new.add_symbol "a").2 ∧
    (SymbolTable.new.add_symbol "a").2 = 1 ∧
    ((SymbolTable.new.add_symbol "a").1.add_symbol "a").2 = 2 ∧
    ((SymbolTable.new.add_symbol "a").1.add_symbol "a").1.len = 3 ∧
    ((SymbolTable.new.add_symbol "a").1.add_symbol "a").1.get_symbol 2 =
      some "a" := by decide

theorem denseLabels_add (t : SymbolTable) (sym : Symbol)
    (hd : t.denseLabels) : (t.add_symbol sym).1.denseLabels := by
  unfold SymbolTable.denseLabels at hd ⊢
  unfold SymbolTable.add_symbol
  simp only []
  rw [orInsert_absent _ _ _ (by rw [hd]; simp), List.map_append, hd,
    List.range_succ]
  rfl

theorem denseLabels_applyAdds_from (syms : List Symbol) (t : SymbolTable)
    (hd : t.denseLabels) :
    (syms.foldl (fun t s => (t.add_symbol s).1) t).denseLabels := by
  induction syms generalizing t with
  | nil => exact hd
  | cons s rest ih => exact ih _ (denseLabels_add t s hd)

theorem add_symbol_num (t : SymbolTable) (s : Symbol) :
    (t.add_symbol s).1.num_symbols = t.num_symbols + 1 := rfl

theorem num_symbols_applyAdds_from (syms : List Symbol) (t : SymbolTable) :
    (syms.foldl (fun t s => (t.add_symbol s).1) t).num_symbols =
      t.num_symbols + syms.length := by
  induction syms generalizing t with
  | nil => rfl
  | cons s rest ih =>
    simp only [List.foldl_cons, ih, List.length_cons, add_symbol_num]
    omega

/-- C4 amended: labels are assigned as a monotonically increasing counter
equal to the number of `add_symbol` calls so far, duplicates included:
every call returns the current counter and increments it.  Adding a
symbol that is already present keeps the symbol's first label in the
symbol→label map (`get_label` is unchanged) but returns the fresh counter
value and inserts a new entry in the label→symbol map.  After any
sequence of calls the labels present in the label→symbol map are exactly
the dense range `0..len()`. -/
theorem c4_add_symbol_counter (t : SymbolTable) (sym : Symbol)
    (syms : List Symbol) (hd : t.denseLabels)
    (hc : t.contains_symbol sym = true) :
    (t.add_symbol sym).2 = t.num_symbols ∧
    (t.add_symbol sym).1.num_symbols = t.num_symbols + 1 ∧
    (t.add_symbol sym).1.denseLabels ∧
    (t.add_symbol sym).1.get_symbol t.num_symbols = some sym ∧
    (t.add_symbol sym).1.get_label sym = t.get_label sym ∧
    (applyAdds syms).denseLabels ∧
    (applyAdds syms).len = syms.length + 1 := by
  refine ⟨rfl, rfl, denseLabels_add t sym hd, ?_, ?_, ?_, ?_⟩
  · unfold SymbolTable.get_symbol SymbolTable.add_symbol
    simp only []
    rw [orInsert_absent _ _ _ (by rw [hd]; simp)]
    exact alookup_append_self _ _ _ (by rw [hd]; simp)
  · unfold SymbolTable.get_label SymbolTable.add_symbol orInsert
    simp only []
    unfold SymbolTable.contains_symbol SymbolTable.get_label at hc
    rw [if_pos hc]
  · exact denseLabels_applyAdds_from syms SymbolTable.new (by decide)
  · show (applyAdds syms).num_symbols = syms.length + 1
    unfold applyAdds
    rw [num_symbols_applyAdds_from]
    have : SymbolTable.new.num_symbols = 1 := by decide
    omega

/-- Witness for C4 at `symt!["a","b","c"]`, which is dense and contains
`"a"`. -/
theorem c4_witness :
    symtABC.denseLabels ∧ symtABC.contains_symbol "a" = true ∧
    ((symtABC.add_symbol "a").2 = symtABC.num_symbols ∧
     (symtABC.add_symbol "a").1.num_symbols = symtABC.num_symbols + 1 ∧
     (symtABC.add_symbol "a").1.denseLabels ∧
     (symtABC.add_symbol "a").1.get_symbol symtABC.num_symbols =
       some "a" ∧
     (symtABC.add_symbol "a").1.get_label "a" = symtABC.get_label "a" ∧
     (applyAdds ["a", "b", "c"]).denseLabels ∧
     (applyAdds ["a", "b", "c"]).len = 4) :=
  ⟨by decide, by decide,
   c4_add_symbol_counter symtABC "a" ["a", "b", "c"] (by decide) (by decide)⟩

/-! ### Claim C1 — reverse -/

theorem getD_set_eq {α : Type} (l : List α) (i : Nat) (x d : α)
    (h : i < l.length) : (l.set i x).getD i d = x := by
  induction l generalizing i with
  | nil => simp at h
  | cons a t ih =>
    cases i with
    | zero => rfl
    | succ j =>
      simp only [List.set_cons_succ, List.getD_cons_succ]
      exact ih j (by simpa using h)

theorem getD_set_ne {α : Type} (l : List α) (i j : Nat) (x d : α)
    (h : i ≠ j) : (l.set j x).getD i d = l.getD i d := by
  induction l generalizing i j with
  | nil => rfl
  | cons a t ih =>
    cases j with
    | zero =>
      cases i with
      | zero => exact absurd rfl h
      | succ k => rfl
    | succ j' =>
      cases i with
      | zero => rfl
      | succ k =>
        simp only [List.set_cons_succ, List.getD_cons_succ]
        exact ih k j' (by omega)

theorem pushAll_getD {α : Type} (ps : List (Nat × α)) (bs : List (List α))
    (i : Nat) (hps : ∀ p ∈ ps, p.1 < bs.length) :
    (pushAll bs ps).getD i [] =
      bs.getD i [] ++ (ps.filter (fun p => p.1 = i)).map Prod.snd := by
  induction ps generalizing bs with
  | nil => simp [pushAll]
  | cons p rest ih =>
    obtain ⟨j, a⟩ := p
    have hj : j < bs.length := hps (j, a) (List.mem_cons_self _ _)
    show (pushAll (pushBucket bs j a) rest).getD i [] = _
    rw [ih (pushBucket bs j a)
      (by intro q hq
          show q.1 < (bs.set j _).length
          rw [List.length_set]
          exact hps q (List.mem_cons_of_mem _ hq))]
    by_cases hij : j = i
    · subst hij
      unfold pushBucket
      rw [getD_set_eq _ _ _ _ hj]
      simp [List.filter_cons, List.append_assoc]
    · unfold pushBucket
      rw [getD_set_ne _ _ _ _ _ (fun hc => hij hc.symm)]
      simp [List.filter_cons, hij]

theorem flatMap_filter {α β : Type} (l : List α) (g : α → List β)
    (p : β → Bool) :
    (l.flatMap g).filter p = l.flatMap fun a => (g a).filter p := by
  induction l with
  | nil => rfl
  | cons a t ih => simp [List.flatMap_cons, List.filter_append, ih]

theorem map_flatMap' {α β γ : Type} (l : List α) (g : α → List β)
    (h : β → γ) :
    (l.flatMap g).map h = l.flatMap fun a => (g a).map h := by
  induction l with
  | nil => rfl
  | cons a t ih => simp [List.flatMap_cons, ih]

theorem reverse_stream_keys (S : SemiringOps W) (f : VectorFst W)
    (hwf : f.wf) :
    ∀ p ∈ f.states.enum.flatMap fun q => reverseEmit S q.1 q.2,
      p.1 < f.num_states + 1 := by
  intro p hp
  rw [List.mem_flatMap] at hp
  obtain ⟨q, hq, hpq⟩ := hp
  obtain ⟨i, st⟩ := q
  have hmem : st ∈ f.states := by
    have h2 := List.mem_enum hq
    rw [h2.2]
    exact List.getElem_mem h2.1
  unfold reverseEmit at hpq
  dsimp only at hpq
  rw [List.mem_append] at hpq
  rcases hpq with h1 | h2
  · rcases hfin : st.final_weight with _ | w <;> rw [hfin] at h1
    · cases h1
    · rw [List.mem_singleton] at h1
      subst h1
      show (0 : Nat) < f.num_states + 1
      omega
  · rw [List.mem_map] at h2
    obtain ⟨tr, htr, rfl⟩ := h2
    have : tr.nextstate < f.states.length := hwf.1 st hmem tr htr
    show tr.nextstate + 1 < f.num_states + 1
    unfold VectorFst.num_states
    omega

theorem reverse_states_get? (S : SemiringOps W) (f : VectorFst W)
    (os : Nat) (h : os < f.num_states + 1) :
    (reverse S f).states.get? os = some
      ⟨if os ≠ 0 ∧ f.start = some (os - 1) then some S.one else none,
       (pushAll (List.replicate (f.num_states + 1) [])
         (f.states.enum.flatMap fun p => reverseEmit S p.1 p.2)).getD os
         []⟩ := by
  unfold reverse
  simp only [List.get?_map, List.get?_range h, Option.map_some']

theorem reverse_trsAt (S : SemiringOps W) (f : VectorFst W) (hwf : f.wf)
    (os : Nat) (h : os < f.num_states + 1) :
    (reverse S f).trsAt os =
      ((f.states.enum.flatMap fun p => reverseEmit S p.1 p.2).filter
        (fun p => p.1 = os)).map Prod.snd := by
  unfold VectorFst.trsAt
  rw [reverse_states_get? S f os h]
  show (pushAll (List.replicate (f.num_states + 1) []) _).getD os [] = _
  rw [pushAll_getD _ _ _
    (by simpa using reverse_stream_keys S f hwf)]
  simp [List.getD_replicate_default_eq]

/-- C1: `reverse` produces exactly the construction of the claim: a fresh
superinitial start state `0`; every input state `s` becomes output state
`s+1`; the input start state (if any) becomes final with weight `one()`
and no other output state is final; the superinitial state carries one
epsilon transition `(EPS, EPS, w.reverse(), s+1)` per input final state
`(s, w)`; output state `t+1` carries one transition
`t+1 -(i,o,w.reverse())-> s+1` per input transition `s -(i,o,w)-> t`; and
on the scenario-S2 acceptor the output is exactly `s2out`. -/
theorem c1_reverse (S : SemiringOps W) (f : VectorFst W) (hwf : f.wf) :
    (reverse S f).start = some 0 ∧
    (reverse S f).num_states = f.num_states + 1 ∧
    (reverse S f).final_weight 0 = none ∧
    (∀ s, s < f.num_states → (reverse S f).final_weight (s + 1) =
      if f.start = some s then some S.one else none) ∧
    (reverse S f).trsAt 0 = reverseSuperTrs S f ∧
    (∀ t, t < f.num_states →
      (reverse S f).trsAt (t + 1) = reverseInTrs S f t) ∧
    reverse tropS s2in = s2out := by
  refine ⟨rfl, ?_, ?_, ?_, ?_, ?_, by decide⟩
  · unfold reverse VectorFst.num_states
    simp
  · unfold VectorFst.final_weight
    rw [reverse_states_get? S f 0 (by omega)]
    simp
  · intro s hs
    unfold VectorFst.final_weight
    rw [reverse_states_get? S f (s + 1) (by omega)]
    simp
  · rw [reverse_trsAt S f hwf 0 (by omega), flatMap_filter, map_flatMap']
    unfold reverseSuperTrs
    refine congrArg _ (funext fun p => ?_)
    unfold reverseEmit
    rcases hfin : p.2.final_weight with _ | w
    · simp [List.filter_append, List.filter_map, Function.comp_def]
    · simp [List.filter_append, List.filter_map, Function.comp_def]
  · intro t ht
    rw [reverse_trsAt S f hwf (t + 1) (by omega), flatMap_filter,
      map_flatMap']
    unfold reverseInTrs
    refine congrArg _ (funext fun p => ?_)
    unfold reverseEmit
    have harg : ∀ tr : Tr W,
        (decide (tr.nextstate + 1 = t + 1)) = decide (tr.nextstate = t) := by
      intro tr
      by_cases h : tr.nextstate = t <;> simp [h]
    rcases hfin : p.2.final_weight with _ | w
    · simp only [List.nil_append, List.filter_map, Function.comp_def,
        List.map_map, harg]
    · simp only [List.filter_append, List.filter_cons, List.filter_nil,
        List.filter_map, Function.comp_def, List.map_map, harg]
      simp

/-- Witness for C1 at the scenario-S2 input. -/
theorem c1_witness :
    s2in.wf ∧ reverse tropS s2in = s2out :=
  ⟨by decide, (c1_reverse tropS s2in (by decide)).2.2.2.2.2.2⟩

/-! ### Claim C8 — ConstFst consuming iterator vs per-state accessors -/

theorem constStatesFrom_length (ss : List (VState W)) (pos : Nat) :
    (constStatesFrom pos ss).length = ss.length := by
  induction ss generalizing pos with
  | nil => rfl
  | cons st rest ih => simp [constStatesFrom, ih]

theorem drainTrs_flat (ss : List (VState W)) (pos : Nat) :
    drainTrs (constStatesFrom pos ss) (ss.map VState.trs).flatten =
      ss.map VState.trs := by
  induction ss generalizing pos with
  | nil => rfl
  | cons st rest ih =>
    show (st.trs ++ (rest.map VState.trs).flatten).take st.trs.length ::
        drainTrs (constStatesFrom (pos + st.trs.length) rest)
          ((st.trs ++ (rest.map VState.trs).flatten).drop st.trs.length) =
      st.trs :: rest.map VState.trs
    rw [List.take_left, List.drop_left, ih]

theorem constStates_slice (ss : List (VState W)) (pre : List (Tr W))
    (s : Nat) (h : s < ss.length) :
    ∃ cst st, ss.get? s = some st ∧
      (constStatesFrom pre.length ss).get? s = some cst ∧
      cst.final_weight = st.final_weight ∧
      cst.narcs = st.trs.length ∧
      ((pre ++ (ss.map VState.trs).flatten).drop cst.pos).take cst.narcs =
        st.trs := by
  induction ss generalizing pre s with
  | nil => simp at h
  | cons st0 rest ih =>
    cases s with
    | zero =>
      refine ⟨_, st0, rfl, rfl, rfl, rfl, ?_⟩
      show ((pre ++ (st0.trs ++ (rest.map VState.trs).flatten)).drop
        pre.length).take st0.trs.length = st0.trs
      rw [List.drop_left, List.take_left]
    | succ s' =>
      have h' : s' < rest.length := by simpa using h
      obtain ⟨cst, st, h1, h2, h3, h4, h5⟩ := ih (pre ++ st0.trs) s' h'
      rw [List.length_append] at h2
      refine ⟨cst, st, h1, h2, h3, h4, ?_⟩
      have hflat : pre ++ ((st0 :: rest).map VState.trs).flatten =
          (pre ++ st0.trs) ++ (rest.map VState.trs).flatten := by
        simp [List.append_assoc]
      rw [hflat]
      exact h5

theorem canonicalFrom_length (k : Nat) (ss : List (VState W)) :
    (canonicalFrom k ss).length = ss.length := by
  induction ss generalizing k with
  | nil => rfl
  | cons st rest ih => simp [canonicalFrom, ih]

theorem canonicalFrom_get? (k i : Nat) (ss : List (VState W)) :
    (canonicalFrom k ss).get? i = (ss.get? i).map fun st =>
      ⟨k + i, st.trs, st.final_weight, st.trs.length⟩ := by
  induction ss generalizing k i with
  | nil => simp [canonicalFrom]
  | cons st rest ih =>
    cases i with
    | zero => rfl
    | succ j =>
      show (canonicalFrom (k + 1) rest).get? j = _
      rw [ih]
      have : k + 1 + j = k + (j + 1) := by omega
      rw [this]
      rfl

theorem intoIter_canonical (ss : List (VState W)) (pos k : Nat) :
    (((constStatesFrom pos ss).zip (ss.map VState.trs)).enumFrom k).map
      (fun p => (⟨p.1, p.2.2, p.2.1.final_weight, p.2.1.narcs⟩ :
        FstIterData W)) = canonicalFrom k ss := by
  induction ss generalizing pos k with
  | nil => rfl
  | cons st rest ih =>
    show (⟨k, st.trs, st.final_weight, st.trs.length⟩ : FstIterData W) ::
        (((constStatesFrom (pos + st.trs.length) rest).zip
          (rest.map VState.trs)).enumFrom (k + 1)).map _ = _
    rw [canonicalFrom, ih (pos + st.trs.length) (k + 1)]

theorem perState_canonical (v : VectorFst W) :
    perStateData (vectorToConst v) = canonicalFrom 0 v.states := by
  apply List.ext_get?
  intro i
  have hn : (vectorToConst v).states.length = v.states.length :=
    constStatesFrom_length _ _
  rw [canonicalFrom_get?]
  unfold perStateData
  by_cases h : i < v.states.length
  · rw [List.get?_map, List.get?_range (by rw [hn]; exact h),
      Option.map_some']
    obtain ⟨cst, st, h1, h2, h3, h4, h5⟩ := constStates_slice v.states [] i h
    simp only [List.length_nil] at h2
    simp only [List.nil_append] at h5
    rw [h1, Option.map_some']
    have hget : (vectorToConst v).states.get? i = some cst := h2
    have htr : (vectorToConst v).tr_iter i = some st.trs := by
      unfold ConstFst.tr_iter
      rw [hget]
      exact congrArg some h5
    have hfw : (vectorToConst v).final_weight i = st.final_weight := by
      unfold ConstFst.final_weight
      rw [hget]
      exact h3
    have hnt : (vectorToConst v).num_trs i = st.trs.length := by
      unfold ConstFst.num_trs
      rw [hget]
      exact h4
    rw [htr, hfw, hnt]
    simp
  · rw [List.get?_map,
      List.get?_eq_none.mpr
        (by rw [List.length_range, hn]; exact Nat.le_of_not_lt h),
      List.get?_eq_none.mpr (Nat.le_of_not_lt h)]
    rfl

/-- C8: for a `ConstFst` obtained by converting a `VectorFst`, the
consuming iterator `fst_into_iter` yields, for each state in increasing
state-id order, the same state id, transition sequence, final weight and
transition count as the per-state accessors `tr_iter`, `final_weight` and
`num_trs` produce. -/
theorem c8_into_iter_eq_accessors (W : Type) (v : VectorFst W) :
    (vectorToConst v).fst_into_iter = perStateData (vectorToConst v) := by
  rw [perState_canonical]
  unfold ConstFst.fst_into_iter vectorToConst
  simp only []
  rw [drainTrs_flat]
  exact intoIter_canonical v.states 0 0

/-! ### Claim C2 — weight pushing fixed point -/

theorem trop_times_assoc (a b c : Trop) :
    tropS.times (tropS.times a b) c = tropS.times a (tropS.times b c) := by
  cases a <;> cases b <;> cases c <;>
    simp [tropS, Trop.times, Int.add_assoc]

theorem trop_left_distrib (a b c : Trop) :
    tropS.times a (tropS.plus b c) =
      tropS.plus (tropS.times a b) (tropS.times a c) := by
  cases a <;> cases b <;> cases c <;> simp [tropS, Trop.times, Trop.plus]
  omega

theorem trop_times_zero (a : Trop) : tropS.times a tropS.zero = tropS.zero := by
  cases a <;> rfl

theorem trop_inv_law (a : Trop) (h : a ≠ tropS.zero) :
    tropS.times (tropInv a) a = tropS.one := by
  cases a with
  | inf => exact absurd rfl h
  | val q =>
    show Trop.val (-q + q) = Trop.val 0
    rw [Int.add_left_neg]

theorem foldr_plus_factor (S : SemiringOps W)
    (hdistl : ∀ a b c, S.times a (S.plus b c) =
      S.plus (S.times a b) (S.times a c))
    (a : W) (xs : List W) (b : W) :
    (xs.map (S.times a)).foldr S.plus (S.times a b) =
      S.times a (xs.foldr S.plus b) := by
  induction xs with
  | nil => rfl
  | cons x t ih =>
    show S.plus (S.times a x) ((t.map (S.times a)).foldr S.plus (S.times a b)) = _
    rw [ih, List.foldr_cons, hdistl]

theorem get?_enumFrom {α : Type} (l : List α) (k i : Nat) :
    (l.enumFrom k).get? i = (l.get? i).map fun a => (k + i, a) := by
  induction l generalizing k i with
  | nil => simp
  | cons a t ih =>
    cases i with
    | zero => simp
    | succ j =>
      show (t.enumFrom (k + 1)).get? j = _
      rw [ih]
      have : k + 1 + j = k + (j + 1) := by omega
      rw [this]
      rfl

theorem reweight_states_get? (S : SemiringOps W) (inv : W → W)
    (f : VectorFst W) (V : Nat → W) (s : Nat) :
    (reweightToInitial S inv f V).states.get? s = (f.states.get? s).map
      fun st =>
        ⟨st.final_weight.map fun w => S.times (inv (V s)) w,
         st.trs.map fun tr =>
           { tr with weight :=
               S.times (S.times (inv (V s)) tr.weight) (V tr.nextstate) }⟩ := by
  unfold reweightToInitial
  show ((f.states.enum.map _).get? s) = _
  rw [List.get?_map]
  show ((f.states.enumFrom 0).get? s).map _ = _
  rw [get?_enumFrom]
  simp only [Nat.zero_add]
  rcases f.states.get? s with _ | st
  · rfl
  · show some _ = some _
    rfl

/-- C2 amended: over a semiring with the spec's §4.1 laws (associativity
of `times`, left distributivity, absorption of `zero`) and nonzero
multiplicative inverses as used by the spec's reweight formula
`V[s]⁻¹ ⊗ w ⊗ V[u]`, if the reverse shortest distances `V` satisfy their
convergence fixpoint, then after `push_weights(F, ReweightToInitial)`
every non-initial state `s` with `V s ≠ zero` (i.e. every coaccessible
non-initial state) satisfies: the ⊕-sum of the weights of its outgoing
transitions plus its final weight (taken as `zero` when absent) equals
`one()`. -/
theorem c2_push_fixed_point (W : Type) (S : SemiringOps W) (inv : W → W)
    (f : VectorFst W) (V : Nat → W) (s : Nat)
    (hassoc : ∀ a b c, S.times (S.times a b) c = S.times a (S.times b c))
    (hdistl : ∀ a b c, S.times a (S.plus b c) =
      S.plus (S.times a b) (S.times a c))
    (hzero : ∀ a, S.times a S.zero = S.zero)
    (hinvL : ∀ a, a ≠ S.zero → S.times (inv a) a = S.one)
    (hfix : isReverseDistance S f V)
    (hs : s < f.num_states)
    (hns : f.start ≠ some s)
    (hV : V s ≠ S.zero) :
    outFinalSum S (push_weightsToInitial S inv f V) s = S.one := by
  have hget : f.states.get? s = some (f.states.get ⟨s, hs⟩) :=
    List.get?_eq_get hs
  set st := f.states.get ⟨s, hs⟩ with hst
  have htrs : (push_weightsToInitial S inv f V).trsAt s =
      st.trs.map fun tr =>
        { tr with weight :=
            S.times (S.times (inv (V s)) tr.weight) (V tr.nextstate) } := by
    unfold VectorFst.trsAt push_weightsToInitial
    rw [reweight_states_get? S inv f V s, hget]
    rfl
  have hfw : (push_weightsToInitial S inv f V).final_weight s =
      st.final_weight.map fun w => S.times (inv (V s)) w := by
    unfold VectorFst.final_weight push_weightsToInitial
    rw [reweight_states_get? S inv f V s, hget]
    rfl
  unfold outFinalSum
  rw [htrs, hfw, List.map_map]
  have hw : (Tr.weight ∘ fun tr : Tr W =>
      { tr with weight :=
          S.times (S.times (inv (V s)) tr.weight) (V tr.nextstate) }) =
      fun tr : Tr W =>
        S.times (inv (V s)) (S.times tr.weight (V tr.nextstate)) := by
    funext tr
    exact hassoc _ _ _
  rw [hw]
  have hbase : (st.final_weight.map fun w =>
      S.times (inv (V s)) w).getD S.zero =
      S.times (inv (V s)) (st.final_weight.getD S.zero) := by
    rcases st.final_weight with _ | fw
    · exact (hzero _).symm
    · rfl
  rw [hbase]
  have hcomp : (fun tr : Tr W =>
      S.times (inv (V s)) (S.times tr.weight (V tr.nextstate))) =
      (S.times (inv (V s))) ∘ fun tr : Tr W =>
        S.times tr.weight (V tr.nextstate) := rfl
  rw [hcomp, ← List.map_map, foldr_plus_factor S hdistl]
  have hinner : (st.trs.map fun tr : Tr W =>
      S.times tr.weight (V tr.nextstate)).foldr S.plus
      (st.final_weight.getD S.zero) = V s := by
    have h1 := hfix s hs
    unfold backSum at h1
    rw [List.foldr_map]
    have htrsAt : f.trsAt s = st.trs := by
      unfold VectorFst.trsAt
      rw [hget]
      rfl
    have hfwAt : f.final_weight s = st.final_weight := by
      unfold VectorFst.final_weight
      rw [hget]
      rfl
    rw [htrsAt, hfwAt] at h1
    exact h1.symm
  rw [hinner]
  exact hinvL _ hV

/-- C2 counterexample to the claim as stated: on `deadIn` the reverse
shortest distances converge (so `shortest_distance` succeeds), yet the
non-initial dead state 1 — which cannot reach a final state — has
out-transition/final sum `zero ≠ one` after pushing. -/
theorem c2_counterexample :
    isReverseDistance tropS deadIn deadV ∧
    deadIn.start ≠ some 1 ∧ (1 : Nat) < deadIn.num_states ∧
    outFinalSum tropS (push_weightsToInitial tropS tropInv deadIn deadV) 1 ≠
      tropS.one := by decide

/-- Witness for C2 at the scenario-S3 Tropical FST, non-initial state 1. -/
theorem c2_witness :
    (1 : Nat) < s3in.num_states ∧ s3in.start ≠ some 1 ∧
    s3V 1 ≠ tropS.zero ∧
    outFinalSum tropS (push_weightsToInitial tropS tropInv s3in s3V) 1 =
      tropS.one :=
  ⟨by decide, by decide, by decide,
   c2_push_fixed_point Trop tropS tropInv s3in s3V 1 trop_times_assoc
     trop_left_distrib trop_times_zero trop_inv_law (by decide) (by decide)
     (by decide) (by decide)⟩

/-! ### Claim C3 — rm_final_epsilon on scenario S4 -/

/-- C3: on the scenario-S4 Tropical input, `rm_final_epsilon` sets the
final weight of state 1 to `1.0 ⊕ (0.3 ⊗ 2.0) = min(1.0, 2.3) = 1.0`,
deletes the epsilon transition `1-(EPS,EPS,0.3)->2`, and `connect`
removes state 2, leaving exactly states `{0,1}` with the transition
`0-(a,a,0.5)->1` (weights in tenths). -/
theorem c3_rm_final_epsilon_s4 :
    tropS.plus (Trop.val 10) (tropS.times (Trop.val 3) (Trop.val 20)) =
      Trop.val 10 ∧
    rm_final_epsilon tropS s4in = s4out := by decide

/-! ### Claim C9 — rm_final_epsilon is not idempotent -/

/-- C9 counterexample: on the two-level final-epsilon chain `chainIn` the
second application of `rm_final_epsilon` changes the FST again (the first
pass only collapses one level, because `coaccess` and the set `F` are
computed before any deletion). -/
theorem c9_counterexample :
    rm_final_epsilon tropS (rm_final_epsilon tropS chainIn) ≠
      rm_final_epsilon tropS chainIn := by decide

theorem filterMap_all_some {α β : Type} (l : List α) (g : α → Option β)
    (h : α → β) (hall : ∀ a ∈ l, g a = some (h a)) :
    l.filterMap g = l.map h := by
  induction l with
  | nil => rfl
  | cons a t ih =>
    rw [List.filterMap_cons, hall a (List.mem_cons_self _ _), List.map_cons,
      ih (fun x hx => hall x (List.mem_cons_of_mem _ hx))]

theorem states_rebuild (l : List (VState W)) :
    (List.range l.length).map (fun s =>
      (⟨(l.get? s).bind VState.final_weight,
        ((l.get? s).map VState.trs).getD []⟩ : VState W)) = l := by
  apply List.ext_get?
  intro i
  rw [List.get?_map]
  by_cases h : i < l.length
  · rw [List.get?_range h]
    simp only [Option.map_some']
    rw [List.get?_eq_get h]
    rfl
  · rw [List.get?_eq_none.mpr (by simpa using Nat.le_of_not_lt h),
      List.get?_eq_none.mpr (Nat.le_of_not_lt h)]
    rfl

theorem trsAt_mem (G : VectorFst W) (s : Nat) (tr : Tr W)
    (h : tr ∈ G.trsAt s) : ∃ st ∈ G.states, tr ∈ st.trs := by
  unfold VectorFst.trsAt at h
  rcases hg : G.states.get? s with _ | st
  · rw [hg] at h
    cases h
  · rw [hg] at h
    exact ⟨st, List.get?_mem hg, h⟩

theorem newId_eq_self (G : VectorFst W) (s : Nat) (hs : s ≤ G.num_states)
    (hconn : ∀ u, u < G.num_states → keepState G u = true) :
    newId G s = s := by
  unfold newId
  rw [List.filter_eq_self.mpr
    (fun x hx => hconn x (lt_of_lt_of_le (List.mem_range.mp hx) hs))]
  exact List.length_range s

theorem connect_id (G : VectorFst W) (hwf : G.wf)
    (hconn : ∀ s, s < G.num_states → keepState G s = true) :
    connect G = G := by
  have hstart : (G.start.bind fun s =>
      if keepState G s then some (newId G s) else none) = G.start := by
    rcases hs0 : G.start with _ | s0
    · rfl
    · have hlt : s0 < G.num_states := hwf.2 s0 hs0
      rw [Option.some_bind, if_pos (hconn s0 hlt),
        newId_eq_self G s0 (Nat.le_of_lt hlt) hconn]
  have hstates : ((List.range G.num_states).filterMap fun s =>
      if keepState G s then
        some (⟨(G.states.get? s).bind VState.final_weight,
          (G.trsAt s).filterMap fun tr =>
            if keepState G tr.nextstate
            then some { tr with nextstate := newId G tr.nextstate }
            else none⟩ : VState W)
      else none) = G.states := by
    rw [filterMap_all_some _ _
      (fun s => (⟨(G.states.get? s).bind VState.final_weight,
        ((G.states.get? s).map VState.trs).getD []⟩ : VState W)) ?hall]
    case hall =>
      intro s hsmem
      have hs : s < G.num_states := List.mem_range.mp hsmem
      rw [if_pos (hconn s hs)]
      have htrs : ((G.trsAt s).filterMap fun tr =>
          if keepState G tr.nextstate
          then some { tr with nextstate := newId G tr.nextstate }
          else none) = G.trsAt s := by
        rw [filterMap_all_some _ _ id ?hall2, List.map_id]
        case hall2 =>
          intro tr htr
          obtain ⟨st, hstm, htrm⟩ := trsAt_mem G s tr htr
          have hlt : tr.nextstate < G.num_states := hwf.1 st hstm tr htrm
          rw [if_pos (hconn _ hlt),
            newId_eq_self G _ (Nat.le_of_lt hlt) hconn]
          rfl
      rw [htrs]
      rfl
    exact states_rebuild G.states
  unfold connect
  rw [hstart, hstates]

theorem rfeState_noop [DecidableEq W] (S : SemiringOps W)
    (Fs : Nat → Bool) (G : VectorFst W) (s : Nat)
    (h : rfeMatches Fs (G.trsAt s) = []) : rfeState S Fs G s = G := by
  unfold rfeState
  rw [h]
  rfl

theorem rfe_loop_id [DecidableEq W] (S : SemiringOps W) (Fs : Nat → Bool)
    (G : VectorFst W) (ls : List Nat)
    (h : ∀ s ∈ ls, rfeMatches Fs (G.trsAt s) = []) :
    ls.foldl (rfeState S Fs) G = G := by
  induction ls with
  | nil => rfl
  | cons a t ih =>
    rw [List.foldl_cons, rfeState_noop S Fs G a (h a (List.mem_cons_self _ _)),
      ih (fun x hx => h x (List.mem_cons_of_mem _ hx))]

/-- C9 amended: `rm_final_epsilon` is not idempotent in general (see the
counterexample); re-applying it leaves an FST unchanged whenever every
state is accessible and coaccessible and no epsilon:epsilon transition
points into the set `F` of final states with no coaccessible successor —
a sufficient condition under which the loop deletes nothing and `connect`
is the identity. -/
theorem c9_rfe_conditional (W : Type) [DecidableEq W] (S : SemiringOps W)
    (G : VectorFst W) (hwf : G.wf)
    (hconn : ∀ s, s < G.num_states → keepState G s = true)
    (hnoeps : ∀ s, s < G.num_states →
      rfeMatches (inFset G) (G.trsAt s) = []) :
    rm_final_epsilon S G = G := by
  unfold rm_final_epsilon
  show connect ((List.range G.num_states).foldl (rfeState S (inFset G)) G) = G
  rw [rfe_loop_id S (inFset G) G (List.range G.num_states)
    (fun s hs => hnoeps s (List.mem_range.mp hs))]
  exact connect_id G hwf hconn

/-- Witness for C9 at the output of the S4 scenario, a connected FST with
no deletable final-epsilon transitions. -/
theorem c9_witness :
    s4out.wf ∧ (∀ s, s < s4out.num_states → keepState s4out s = true) ∧
    (∀ s, s < s4out.num_states →
      rfeMatches (inFset s4out) (s4out.trsAt s) = []) ∧
    rm_final_epsilon tropS s4out = s4out :=
  ⟨by decide, by decide, by decide,
   c9_rfe_conditional Trop tropS s4out (by decide) (by decide) (by decide)⟩

/-! ### Claim C6 — symbol-table text round trip -/

theorem digit_char_facts (d : Nat) (h : d < 10) :
    isDigitChar (Char.ofNat (48 + d)) = true ∧
    (Char.ofNat (48 + d)).toNat = 48 + d := by
  interval_cases d <;> exact ⟨by decide, by decide⟩

theorem natToCharsAux_digits (fuel n : Nat) (h : n < fuel) :
    ∀ c ∈ natToCharsAux fuel n, isDigitChar c = true := by
  induction fuel generalizing n with
  | zero => omega
  | succ f ih =>
    intro c hc
    unfold natToCharsAux at hc
    by_cases h10 : n < 10
    · rw [if_pos h10, List.mem_singleton] at hc
      subst hc
      exact (digit_char_facts n h10).1
    · rw [if_neg h10, List.mem_append] at hc
      rcases hc with hc | hc
      · exact ih (n / 10) (by omega) c hc
      · rw [List.mem_singleton] at hc
        subst hc
        exact (digit_char_facts (n % 10) (Nat.mod_lt n (by omega))).1

theorem natToCharsAux_ne_nil (fuel n : Nat) (h : n < fuel) :
    natToCharsAux fuel n ≠ [] := by
  cases fuel with
  | zero => omega
  | succ f =>
    unfold natToCharsAux
    by_cases h10 : n < 10
    · rw [if_pos h10]; simp
    · rw [if_neg h10]; simp

theorem charsVal_append_digit (a : List Char) (c : Char) :
    charsVal (a ++ [c]) = charsVal a * 10 + (c.toNat - 48) := by
  unfold charsVal
  rw [List.foldl_append]
  rfl

theorem natToCharsAux_val (fuel n : Nat) (h : n < fuel) :
    charsVal (natToCharsAux fuel n) = n := by
  induction fuel generalizing n with
  | zero => omega
  | succ f ih =>
    unfold natToCharsAux
    by_cases h10 : n < 10
    · rw [if_pos h10]
      show 0 * 10 + ((Char.ofNat (48 + n)).toNat - 48) = n
      rw [(digit_char_facts n h10).2]
      omega
    · rw [if_neg h10, charsVal_append_digit,
        ih (n / 10) (by omega),
        (digit_char_facts (n % 10) (Nat.mod_lt n (by omega))).2]
      omega

theorem charsToNat?_natToChars (n : Nat) :
    charsToNat? (natToChars n) = some n := by
  unfold charsToNat? natToChars
  rw [if_pos, natToCharsAux_val (n + 1) n (by omega)]
  rw [Bool.and_eq_true]
  constructor
  · rw [Bool.not_eq_true']
    rcases he : natToCharsAux (n + 1) n with _ | ⟨c, cs⟩
    · exact absurd he (natToCharsAux_ne_nil (n + 1) n (by omega))
    · rfl
  · rw [List.all_eq_true]
    exact natToCharsAux_digits (n + 1) n (by omega)

theorem digits_no_ctrl (n : Nat) (c : Char) (hc : c ∈ natToChars n) :
    c ≠ Char.ofNat 9 ∧ c ≠ Char.ofNat 10 := by
  have hd := natToCharsAux_digits (n + 1) n (by omega) c hc
  constructor <;> intro he <;> subst he <;> revert hd <;> decide

theorem splitOnChar_ne_nil (c : Char) (l : List Char) :
    splitOnChar c l ≠ [] := by
  cases l with
  | nil => simp [splitOnChar]
  | cons x xs =>
    unfold splitOnChar
    rcases splitOnChar c xs with _ | ⟨h, t⟩
    · simp
    · by_cases hx : x = c <;> simp [hx]

theorem splitOnChar_no (c : Char) (a : List Char) (h : c ∉ a) :
    splitOnChar c a = [a] := by
  induction a with
  | nil => rfl
  | cons x xs ih =>
    rw [List.mem_cons, not_or] at h
    have h1 : ¬x = c := fun hx => h.1 hx.symm
    simp [splitOnChar, ih h.2, h1]

theorem splitOnChar_append (c : Char) (a b : List Char) (h : c ∉ a) :
    splitOnChar c (a ++ c :: b) = a :: splitOnChar c b := by
  induction a with
  | nil =>
    show splitOnChar c (c :: b) = [] :: splitOnChar c b
    rcases he : splitOnChar c b with _ | ⟨hd, tl⟩
    · exact absurd he (splitOnChar_ne_nil c b)
    · simp [splitOnChar, he]
  | cons x xs ih =>
    rw [List.mem_cons, not_or] at h
    have h1 : ¬x = c := fun hx => h.1 hx.symm
    show splitOnChar c (x :: (xs ++ c :: b)) = (x :: xs) :: splitOnChar c b
    simp [splitOnChar, ih h.2, h1]

theorem splitOnChar_flatten (c : Char) (ls : List (List Char))
    (h : ∀ x ∈ ls, c ∉ x) :
    splitOnChar c ((ls.map (· ++ [c])).flatten) = ls ++ [[]] := by
  induction ls with
  | nil => rfl
  | cons x rest ih =>
    have hx : c ∉ x := h x (List.mem_cons_self _ _)
    have : ((x :: rest).map (· ++ [c])).flatten =
        x ++ c :: (rest.map (· ++ [c])).flatten := by
      simp [List.append_assoc]
    rw [this, splitOnChar_append c x _ hx,
      ih (fun y hy => h y (List.mem_cons_of_mem _ hy))]
    rfl

theorem tab_notin_digits (l0 : Nat) : Char.ofNat 9 ∉ natToChars l0 :=
  fun hc => (digits_no_ctrl l0 _ hc).1 rfl

theorem parseLine_body (l0 : Label) (s : Symbol) (hok : symOk s) :
    parseLine (s.data ++ Char.ofNat 9 :: natToChars l0) = some (s, l0) := by
  obtain ⟨hne, hhead, htab, hnl⟩ := hok
  have hsplit : splitOnChar (Char.ofNat 9)
      (s.data ++ Char.ofNat 9 :: natToChars l0) =
      [s.data, natToChars l0] := by
    rw [splitOnChar_append _ _ _ htab,
      splitOnChar_no _ _ (tab_notin_digits l0)]
  have hemp : (s.data ++ Char.ofNat 9 :: natToChars l0).isEmpty = false := by
    rcases hd : s.data with _ | ⟨c, cs⟩
    · exact absurd hd hne
    · rfl
  have hh : (s.data ++ Char.ofNat 9 :: natToChars l0).head? ≠
      some (Char.ofNat 35) := by
    rw [List.head?_append_of_ne_nil _ hne]
    exact hhead
  unfold parseLine
  rw [if_neg (by simp [hemp, hhead]), hsplit]
  show Option.map (fun n => (String.mk s.data, n))
    (charsToNat? (natToChars l0)) = some (s, l0)
  rw [charsToNat?_natToChars]
  rfl

theorem parseLines_map (ps : List (Label × Symbol))
    (hok : ∀ p ∈ ps, symOk p.2) :
    parseLines (ps.map fun p => p.2.data ++ Char.ofNat 9 :: natToChars p.1) =
      some (ps.map fun p => (p.2, p.1)) := by
  induction ps with
  | nil => rfl
  | cons p rest ih =>
    rw [List.map_cons]
    simp [parseLines, parseLine_body p.1 p.2 (hok p (List.mem_cons_self _ _)),
      ih (fun q hq => hok q (List.mem_cons_of_mem _ hq))]

theorem foldl_insertA {γ α β : Type} [DecidableEq α] (ps : List γ)
    (key : γ → α) (val : γ → β) (acc : List (α × β))
    (hdis : ∀ p ∈ ps, key p ∉ acc.map Prod.fst)
    (hnd : (ps.map key).Nodup) :
    ps.foldl (fun m p => insertA m (key p) (val p)) acc =
      acc ++ ps.map fun p => (key p, val p) := by
  induction ps generalizing acc with
  | nil => simp
  | cons p rest ih =>
    rw [List.map_cons, List.nodup_cons] at hnd
    rw [List.foldl_cons]
    have habs : key p ∉ acc.map Prod.fst := hdis p (List.mem_cons_self _ _)
    have hins : insertA acc (key p) (val p) = acc ++ [(key p, val p)] := by
      unfold insertA
      rw [(alookup_eq_none _ _).mpr habs]
      rfl
    rw [hins, ih (acc ++ [(key p, val p)]) ?dis hnd.2, List.map_cons,
      List.append_assoc]
    · rfl
    case dis =>
      intro q hq
      rw [List.map_append, List.mem_append]
      rintro (hin | hin)
      · exact hdis q (List.mem_cons_of_mem _ hq) hin
      · rw [List.map_cons, List.map_nil, List.mem_singleton] at hin
        have hin2 : key q = key p := hin
        exact hnd.1 (hin2 ▸ List.mem_map_of_mem key hq)

theorem foldl_insertA_labels (ps : List (Symbol × Label))
    (hnd : (ps.map fun q => q.2).Nodup) :
    ps.foldl (fun m p => insertA m p.2 p.1) [] =
      ps.map fun p => (p.2, p.1) :=
  (foldl_insertA ps (fun q => q.2) (fun q => q.1) [] (by simp) hnd).trans
    (List.nil_append _)

theorem foldl_insertA_symbols (ps : List (Symbol × Label))
    (hnd : (ps.map fun q => q.1).Nodup) :
    ps.foldl (fun m p => insertA m p.1 p.2) [] =
      ps.map fun p => (p.1, p.2) :=
  (foldl_insertA ps (fun q => q.1) (fun q => q.2) [] (by simp) hnd).trans
    (List.nil_append _)

/-- C6: printing a well-formed `SymbolTable` to its text form (one
`SYMBOL\tLABEL` record per line, sorted by ascending label) and parsing
the result yields a table equal to the original (equal counters and equal
key-value sets of both maps); in particular for `symt!["a","b","c"]` the
round-tripped `(label, symbol)` pairs are exactly
`{(0,"<eps>"), (1,"a"), (2,"b"), (3,"c")}`. -/
theorem c6_symt_roundtrip (t : SymbolTable) (hwf : t.wellFormed) :
    (∃ t2, fromTextChars t.textChars = some t2 ∧ tableEq t2 t) ∧
    fromTextChars symtABC.textChars = some
      ⟨[(0, "<eps>"), (1, "a"), (2, "b"), (3, "c")],
       [("<eps>", 0), ("a", 1), ("b", 2), ("c", 3)], 4⟩ := by
  refine ⟨?_, by decide⟩
  obtain ⟨hkeys, hvals, hstl, hok⟩ := hwf
  have hperm : (sortByLabel t.label_to_symbol).Perm t.label_to_symbol :=
    List.perm_insertionSort _ _
  set sorted := sortByLabel t.label_to_symbol with hsorted
  have hkeysnd : (sorted.map Prod.fst).Nodup :=
    ((hperm.map Prod.fst).nodup_iff).mpr
      (hkeys.nodup_iff.mpr (List.nodup_range _))
  have hvalsnd : (sorted.map Prod.snd).Nodup :=
    ((hperm.map Prod.snd).nodup_iff).mpr hvals
  have hoks : ∀ p ∈ sorted, symOk p.2 := fun p hp => hok p (hperm.subset hp)
  have hlen : sorted.length = t.num_symbols := by
    have h1 := hperm.length_eq
    have h2 := hkeys.length_eq
    rw [List.length_map, List.length_range] at h2
    omega
  have hbody_nonl : ∀ x ∈ sorted.map
      (fun p => p.2.data ++ Char.ofNat 9 :: natToChars p.1),
      Char.ofNat 10 ∉ x := by
    intro x hx
    rw [List.mem_map] at hx
    obtain ⟨p, hp, rfl⟩ := hx
    intro hcm
    rw [List.mem_append] at hcm
    rcases hcm with hc | hc
    · exact (hoks p hp).2.2.2 hc
    · rw [List.mem_cons] at hc
      rcases hc with hc | hc
      · exact absurd hc (by decide)
      · exact (digits_no_ctrl p.1 _ hc).2 rfl
  have hmap : sorted.map lineChars =
      (sorted.map (fun p => p.2.data ++ Char.ofNat 9 :: natToChars p.1)).map
        (· ++ [Char.ofNat 10]) := by
    rw [List.map_map]
    apply List.map_congr_left
    intro p hp
    simp [lineChars, List.append_assoc]
  have hsplit : splitOnChar (Char.ofNat 10) t.textChars =
      sorted.map (fun p => p.2.data ++ Char.ofNat 9 :: natToChars p.1) ++
        [[]] := by
    show splitOnChar (Char.ofNat 10) ((sorted.map lineChars).flatten) = _
    rw [hmap, splitOnChar_flatten _ _ hbody_nonl]
  refine ⟨fromPairs (sorted.map fun p => (p.2, p.1)), ?_, ?_, ?_, ?_⟩
  · show (parseLines
      (if (splitOnChar (Char.ofNat 10) t.textChars).getLast? = some []
       then (splitOnChar (Char.ofNat 10) t.textChars).dropLast
       else splitOnChar (Char.ofNat 10) t.textChars)).map fromPairs = some _
    rw [hsplit, List.getLast?_concat, if_pos rfl, List.dropLast_concat,
      parseLines_map sorted hoks]
    rfl
  · show (sorted.map fun p => (p.2, p.1)).length = t.num_symbols
    rw [List.length_map]
    exact hlen
  · show ((sorted.map fun p => (p.2, p.1)).foldl
      (fun m p => insertA m p.2 p.1) []).Perm t.label_to_symbol
    rw [foldl_insertA_labels _ (by rw [List.map_map]; exact hkeysnd),
      List.map_map]
    have hid : ((fun p : Symbol × Label => (p.2, p.1)) ∘
        fun p : Label × Symbol => (p.2, p.1)) = id := funext fun p => rfl
    rw [hid, List.map_id]
    exact hperm
  · show ((sorted.map fun p => (p.2, p.1)).foldl
      (fun m p => insertA m p.1 p.2) []).Perm t.symbol_to_label
    rw [foldl_insertA_symbols _ (by rw [List.map_map]; exact hvalsnd),
      List.map_map]
    refine List.Perm.trans ?_ hstl.symm
    exact hperm.map _

/-- Witness for C6 at `symt!["a","b","c"]`. -/
theorem c6_witness :
    symtABC.wellFormed ∧
    ∃ t2, fromTextChars symtABC.textChars = some t2 ∧ tableEq t2 symtABC :=
  ⟨by decide, (c6_symt_roundtrip symtABC (by decide)).1⟩

end RustfstSpec
